import Mathlib

/-!
Verification of the client-side token aggregation / filtering pipeline of the
screener app.  The definitions below are shallow embeddings of the TypeScript
source: `transformPairsToTokens` and `applyFilters` from the search screen,
`interleavePairs` from `DashboardScreen.tsx`, and the watchlist operations from
`lib/store.ts`.  JavaScript numbers are modelled as rationals, absent fields as
`Option`, and JS truthiness (`||`, falsiness of `0`, `NaN` and `""`) is made
explicit.
-/

namespace Screener

/-! ## JS primitives -/

/-- Numeric value of a list of decimal digit characters. -/
def digitsVal (ds : List Char) : Nat :=
  ds.foldl (fun n c => 10 * n + (c.toNat - ('0').toNat)) 0

/-- Shallow embedding of JS `parseFloat` on the forms used in this code base:
leading whitespace is skipped, then an optional sign, integer digits and an
optional fractional part are read as the longest numeric head; trailing junk
is ignored.  The result is `none` exactly when JS would return `NaN` (no digit
at all, e.g. on `"abc"` or `""`). -/
def parseFloat (s : String) : Option ℚ :=
  let cs := s.toList.dropWhile Char.isWhitespace
  let signed : Bool × List Char :=
    match cs with
    | '-' :: rest => (true, rest)
    | '+' :: rest => (false, rest)
    | _ => (false, cs)
  let intDigits := signed.2.takeWhile Char.isDigit
  let afterInt := signed.2.dropWhile Char.isDigit
  let fracDigits : List Char :=
    match afterInt with
    | '.' :: rest => rest.takeWhile Char.isDigit
    | _ => []
  if intDigits = [] ∧ fracDigits = [] then none
  else
    let mag : ℚ := (digitsVal intDigits : ℚ) + (digitsVal fracDigits : ℚ) / (10 ^ fracDigits.length)
    some (if signed.1 then -mag else mag)

/-- Shallow embedding of `String.toLowerCase()`: lower-case every character.
Stated over the character list so that it evaluates by kernel reduction. -/
def toLowerStr (s : String) : String :=
  String.mk (s.data.map Char.toLower)

/-- JS `a || b` where `a` is a possibly-absent string: `undefined` and the
empty string are falsy. -/
def jsOrStr (a : Option String) (b : String) : String :=
  match a with
  | some s => if s = "" then b else s
  | none => b

/-- JS `a || b` where `a` is a possibly-absent string and the fallback is also
possibly absent. -/
def jsOrStrOpt (a : Option String) (b : Option String) : Option String :=
  match a with
  | some s => if s = "" then b else some s
  | none => b

/-- JS `a || b` where `a` is a possibly-absent number: `undefined`, `NaN`
(here folded into `none`) and `0` are falsy. -/
def jsOrNum (a : Option ℚ) (b : ℚ) : ℚ :=
  match a with
  | some x => if x = 0 then b else x
  | none => b

/-! ## Data model of the search screen (src/unnamed/part_000)

`Pair` is the raw record coming from the market-data API, of which the code
reads `baseToken` (with `address`, `symbol`, `name`, `logoUri`, `verified`),
`priceUsd` (a string), `priceChange.h24`, `volume.h24`, `marketCap` and
`liquidity.usd`.  The nested one-field objects are flattened to optional
rationals. -/

structure BaseToken where
  address : Option String
  symbol : String
  name : String
  logoUri : Option String
  verified : Option Bool
  deriving DecidableEq, Repr

structure Pair where
  baseToken : Option BaseToken
  priceUsd : String
  priceChange : Option ℚ
  volume : Option ℚ
  marketCap : Option ℚ
  liquidity : Option ℚ
  deriving DecidableEq, Repr

/-- The `Token` interface of the search screen. -/
structure Token where
  address : String
  symbol : String
  name : String
  logoUri : Option String
  priceUsd : String
  priceChange : Option ℚ
  volume : Option ℚ
  marketCap : Option ℚ
  liquidity : Option ℚ
  verified : Bool
  deriving DecidableEq, Repr

/-! ## transformPairsToTokens -/

/-- The aggregation key of a pair: `pair.baseToken.address?.toLowerCase()`,
`none` when the base token is missing, its address is missing, or the address
is the (JS-falsy) empty string — such pairs are skipped. -/
def pairKey (p : Pair) : Option String :=
  match p.baseToken with
  | none => none
  | some bt =>
    match bt.address with
    | none => none
    | some a => if toLowerStr a = "" then none else some (toLowerStr a)

/-- The token entry created for the first pair seen for an address. -/
def newToken (bt : BaseToken) (addr : String) (p : Pair) : Token :=
  { address := addr
    symbol := bt.symbol
    name := bt.name
    logoUri := bt.logoUri
    priceUsd := p.priceUsd
    priceChange := p.priceChange
    volume := p.volume
    marketCap := p.marketCap
    liquidity := p.liquidity
    verified := bt.verified.getD false }

/-- Merging one further pair into an existing aggregate: volumes and
liquidities are added (missing values read as `0`), and the price data is
overwritten exactly when the new pair's liquidity strictly exceeds the
liquidity previously recorded on the aggregate. -/
def mergeToken (t : Token) (p : Pair) : Token :=
  let existingVolume := t.volume.getD 0
  let newVolume := p.volume.getD 0
  let existingLiquidity := t.liquidity.getD 0
  let newLiquidity := p.liquidity.getD 0
  { t with
    volume := some (existingVolume + newVolume)
    liquidity := some (existingLiquidity + newLiquidity)
    priceUsd := if newLiquidity > existingLiquidity then p.priceUsd else t.priceUsd
    priceChange := if newLiquidity > existingLiquidity then p.priceChange else t.priceChange }

/-- Lookup in the insertion-ordered association list modelling the JS `Map`. -/
def lookupTok (m : List (String × Token)) (k : String) : Option Token :=
  match m with
  | [] => none
  | (k', t) :: rest => if k' = k then some t else lookupTok rest k

/-- `Map.set`: replace the value at an existing key in place, otherwise append
at the end. -/
def setTok (m : List (String × Token)) (k : String) (t : Token) : List (String × Token) :=
  match m with
  | [] => [(k, t)]
  | (k', t') :: rest => if k' = k then (k, t) :: rest else (k', t') :: setTok rest k t

/-- One iteration of the `pairs.forEach` body of `transformPairsToTokens`. -/
def stepPair (m : List (String × Token)) (p : Pair) : List (String × Token) :=
  match p.baseToken with
  | none => m
  | some bt =>
    match bt.address with
    | none => m
    | some addr =>
      if toLowerStr addr = "" then m
      else
        match lookupTok m (toLowerStr addr) with
        | some t => setTok m (toLowerStr addr) (mergeToken t p)
        | none => setTok m (toLowerStr addr) (newToken bt addr p)

/-- `transformPairsToTokens` from the search screen: fold the pairs through the
map and return the values in insertion order. -/
def transformPairsToTokens (pairs : List Pair) : List Token :=
  (pairs.foldl stepPair []).map Prod.snd

/-- The token created for a pair, when its base token and address are
present (companion of the creation branch of `stepPair`). -/
def createToken (p : Pair) : Option Token :=
  match p.baseToken with
  | none => none
  | some bt =>
    match bt.address with
    | none => none
    | some addr => some (newToken bt addr p)

/-- The per-key aggregation step: the first pair of a key creates the token,
every further pair is merged into it.  `transformPairsToTokens` is proved
below to run this fold on the subsequence of pairs sharing one key. -/
def aggStep (acc : Option Token) (p : Pair) : Option Token :=
  match acc with
  | none => createToken p
  | some t => some (mergeToken t p)

/-- One step of the spec-side price-selection scan (amended C1).  The state is
the currently displayed `(priceUsd, priceChange)` and the running total of the
liquidities seen so far; a pair takes over the displayed price exactly when
its liquidity strictly exceeds that running total. -/
def priceScanStep (acc : (String × Option ℚ) × ℚ) (p : Pair) : (String × Option ℚ) × ℚ :=
  ((if p.liquidity.getD 0 > acc.2 then (p.priceUsd, p.priceChange) else acc.1),
   acc.2 + p.liquidity.getD 0)

/-- Spec-side rendering of the amended C1: the `(priceUsd, priceChange)`
displayed for a group of pairs is the one of the last pair whose liquidity
strictly exceeded the running total of the liquidities of the pairs before it
(the first pair when none does); `none` for an empty group. -/
def selectedPriceData : List Pair → Option (String × Option ℚ)
  | [] => none
  | q :: rest =>
    some ((rest.foldl priceScanStep ((q.priceUsd, q.priceChange), q.liquidity.getD 0)).1)

/-- Invariant of the aggregation map: every entry is stored under the
lower-cased address of its token, and keys are distinct. -/
def goodMap (m : List (String × Token)) : Prop :=
  (∀ e ∈ m, toLowerStr e.2.address = e.1) ∧ (m.map Prod.fst).Nodup

/-! ## applyFilters (src/unnamed/part_000, lines 158-195) -/

/-- The `AdvancedFilters` interface. -/
structure AdvancedFilters where
  minPrice : ℚ
  maxPrice : ℚ
  minVolume : ℚ
  maxVolume : ℚ
  minMarketCap : ℚ
  maxMarketCap : ℚ
  minLiquidity : ℚ
  maxLiquidity : ℚ
  onlyVerified : Bool
  minPriceChange : ℚ
  maxPriceChange : ℚ
  deriving DecidableEq, Repr

/-- The initial `advancedFilters` state of the search screen
(src/unnamed/part_000, lines 67-79). -/
def defaultAdvancedFilters : AdvancedFilters :=
  { minPrice := 0
    maxPrice := 1000
    minVolume := 0
    maxVolume := 10000000
    minMarketCap := 0
    maxMarketCap := 1000000000
    minLiquidity := 0
    maxLiquidity := 10000000
    onlyVerified := false
    minPriceChange := -100
    maxPriceChange := 100 }

/-- The advanced range predicate of `applyFilters`: every reading (price parsed
from the string, the others read with missing values as `0`) must lie within
its inclusive range, and `onlyVerified` additionally requires the verified
flag. -/
def advancedPred (advanced : AdvancedFilters) (token : Token) : Bool :=
  let price := (parseFloat token.priceUsd).getD 0
  let volume := token.volume.getD 0
  let marketCap := token.marketCap.getD 0
  let liquidity := token.liquidity.getD 0
  let priceChange := token.priceChange.getD 0
  decide (price ≥ advanced.minPrice) && decide (price ≤ advanced.maxPrice) &&
  decide (volume ≥ advanced.minVolume) && decide (volume ≤ advanced.maxVolume) &&
  decide (marketCap ≥ advanced.minMarketCap) && decide (marketCap ≤ advanced.maxMarketCap) &&
  decide (liquidity ≥ advanced.minLiquidity) && decide (liquidity ≤ advanced.maxLiquidity) &&
  decide (priceChange ≥ advanced.minPriceChange) && decide (priceChange ≤ advanced.maxPriceChange) &&
  (!advanced.onlyVerified || token.verified)

/-- The quick filter predicate for the name `"High Volume"`. -/
def highVolumePred (t : Token) : Bool := decide (t.volume.getD 0 > 100000)

/-- The quick filter predicate for the name `"Top Gainers"`. -/
def topGainersPred (t : Token) : Bool := decide (t.priceChange.getD 0 > 5)

/-- The quick filter predicate for the name `"Top Losers"`. -/
def topLosersPred (t : Token) : Bool := decide (t.priceChange.getD 0 < -5)

/-- The sort order used by `applyFilters`: the JS comparator
`(b.volume?.h24 || 0) - (a.volume?.h24 || 0)` allows `a` before `b` exactly
when it is nonpositive, i.e. descending by 24h volume. -/
def volumeDescLe (a b : Token) : Bool :=
  decide (b.volume.getD 0 - a.volume.getD 0 ≤ 0)

/-- The quick-filter stage of `applyFilters`: each implemented quick filter is
applied exactly when its name is in the selected set. -/
def quickFiltered (tokens : List Token) (filters : List String) : List Token :=
  let f1 := if filters.contains ("High Volume") then tokens.filter highVolumePred else tokens
  let f2 := if filters.contains ("Top Gainers") then f1.filter topGainersPred else f1
  if filters.contains ("Top Losers") then f2.filter topLosersPred else f2

/-- `applyFilters` from the search screen: apply the three implemented quick
filters when their names are selected, then the advanced range filter, then
sort descending by volume (JS `Array.prototype.sort` is stable, modelled by
the stable `List.mergeSort`). -/
def applyFilters (tokens : List Token) (filters : List String) (advanced : AdvancedFilters) :
    List Token :=
  ((quickFiltered tokens filters).filter (advancedPred advanced)).mergeSort volumeDescLe

/-- Spec-side rendering of the amended C3 hypothesis: every reading of the
token lies inside the corresponding default advanced range (parsed price in
`[0, 1000]`, volume in `[0, 10^7]`, market cap in `[0, 10^9]`, liquidity in
`[0, 10^7]`, price change in `[-100, 100]`, missing values read as `0`). -/
def withinDefaultRanges (t : Token) : Prop :=
  0 ≤ (parseFloat t.priceUsd).getD 0 ∧ (parseFloat t.priceUsd).getD 0 ≤ 1000 ∧
  0 ≤ t.volume.getD 0 ∧ t.volume.getD 0 ≤ 10000000 ∧
  0 ≤ t.marketCap.getD 0 ∧ t.marketCap.getD 0 ≤ 1000000000 ∧
  0 ≤ t.liquidity.getD 0 ∧ t.liquidity.getD 0 ≤ 10000000 ∧
  -100 ≤ t.priceChange.getD 0 ∧ t.priceChange.getD 0 ≤ 100

/-! ## Watchlist store (src/lib/store.ts) -/

/-- The fields of the loosely-typed `baseToken` blob that the store reads. -/
structure WBaseToken where
  symbol : Option String
  name : Option String
  deriving DecidableEq, Repr

/-- The loosely-typed raw record handed to `addToWatchlist`; every field the
store reads is optional.  `priceChangeH24` and `volumeH24` stand for the
nested `priceChange?.h24` and `volume?.h24` readings, `liquidityUsd` for
`liquidity?.usd`. -/
structure RawToken where
  pairAddress : Option String
  id : Option String
  baseToken : Option WBaseToken
  symbol : Option String
  name : Option String
  priceUsd : Option String
  price : Option ℚ
  priceChangeH24 : Option ℚ
  priceChange24h : Option ℚ
  volumeH24 : Option ℚ
  volume24h : Option ℚ
  marketCap : Option ℚ
  liquidityUsd : Option ℚ
  deriving DecidableEq, Repr

/-- The `Token` interface of `store.ts` (a watchlist entry). -/
structure WatchToken where
  id : String
  symbol : String
  name : Option String
  price : ℚ
  priceChange24h : ℚ
  volume24h : ℚ
  marketCap : Option ℚ
  liquidity : Option ℚ
  pairAddress : Option String
  baseToken : Option WBaseToken
  deriving DecidableEq, Repr

/-- The id chosen by `addToWatchlist`:
`token.pairAddress || token.id || Date.now().toString()`, with the
nondeterministic timestamp string passed in as `fresh`. -/
def computeId (token : RawToken) (fresh : String) : String :=
  jsOrStr token.pairAddress (jsOrStr token.id fresh)

/-- The watchlist entry built by `addToWatchlist` for a raw record.  The price
is `parseFloat(token.priceUsd ?? '0') || token.price || 0`, the 24h fields use
nullish coalescing (`?? 0`), market cap and liquidity are copied verbatim. -/
def normalizeWatchToken (token : RawToken) (tokenId : String) : WatchToken :=
  { id := tokenId
    symbol := jsOrStr (jsOrStrOpt (token.baseToken.bind WBaseToken.symbol) token.symbol) ("UNKNOWN")
    name := jsOrStrOpt (token.baseToken.bind WBaseToken.name) token.name
    price := jsOrNum (parseFloat (token.priceUsd.getD ("0"))) (jsOrNum token.price 0)
    priceChange24h := token.priceChangeH24.getD (token.priceChange24h.getD 0)
    volume24h := token.volumeH24.getD (token.volume24h.getD 0)
    marketCap := token.marketCap
    liquidity := token.liquidityUsd
    pairAddress := token.pairAddress
    baseToken := token.baseToken }

/-- `addToWatchlist`: compute the id, return the list unchanged when some
entry already has that id, otherwise append the normalized entry. -/
def addToWatchlist (watchlist : List WatchToken) (token : RawToken) (fresh : String) :
    List WatchToken :=
  let tokenId := computeId token fresh
  if watchlist.any (fun t => t.id = tokenId) then watchlist
  else watchlist ++ [normalizeWatchToken token tokenId]

/-- `removeFromWatchlist`: keep exactly the entries whose id differs. -/
def removeFromWatchlist (watchlist : List WatchToken) (tokenId : String) : List WatchToken :=
  watchlist.filter (fun t => t.id ≠ tokenId)

/-! ## interleavePairs (src/components/screens/DashboardScreen.tsx) -/

/-- A pair as consumed by the dashboard interleaver: only the `_chain` tag
attached by `fetchTrendingPairs` matters, `pairAddress` identifies the pair. -/
structure TrendingPair where
  pairAddress : String
  _chain : Option String
  deriving DecidableEq, Repr

/-- The per-chain group built by the `pairs.forEach` of `interleavePairs`:
pairs carrying this chain tag, in input order.  Pairs whose tag is absent or
not one of the initialised chains are pushed nowhere. -/
def chainGroup (pairs : List TrendingPair) (chain : String) : List TrendingPair :=
  pairs.filter (fun p => p._chain = some chain)

/-- One sweep of the `for (const chain of blockchains)` body at index `i`:
emit the `i`-th element of each chain's group when it exists. -/
def interleaveSweep (pairs : List TrendingPair) (blockchains : List String) (i : Nat) :
    List TrendingPair :=
  blockchains.filterMap (fun chain => (chainGroup pairs chain)[i]?)

/-- The `while (added && result.length < 16)` loop: the length is tested only
between full sweeps, and a sweep that contributed nothing ends the loop. -/
def interleaveLoop (pairs : List TrendingPair) (blockchains : List String) (i : Nat)
    (result : List TrendingPair) : List TrendingPair :=
  if result.length < 16 then
    if hs : interleaveSweep pairs blockchains i = [] then result
    else interleaveLoop pairs blockchains (i + 1) (result ++ interleaveSweep pairs blockchains i)
  else result
termination_by 16 - result.length
decreasing_by
  have hpos : (interleaveSweep pairs blockchains i).length > 0 := List.length_pos.mpr hs
  simp only [List.length_append]
  omega

/-- `interleavePairs` from `DashboardScreen.tsx`. -/
def interleavePairs (pairs : List TrendingPair) (blockchains : List String) :
    List TrendingPair :=
  interleaveLoop pairs blockchains 0 []

/-! ## Concrete inputs used by the scenario theorems and witnesses -/

def dpA1 : TrendingPair := ⟨"A1", some ("A")⟩
def dpA2 : TrendingPair := ⟨"A2", some ("A")⟩
def dpB1 : TrendingPair := ⟨"B1", some ("B")⟩
def dpC1 : TrendingPair := ⟨"C1", some ("C")⟩
def dpC2 : TrendingPair := ⟨"C2", some ("C")⟩
def dpC3 : TrendingPair := ⟨"C3", some ("C")⟩

/-- Seventeen tagged pairs: eight on chain `A`, one on chain `B`, eight on
chain `C`. -/
def overflowPairs : List TrendingPair :=
  [⟨"a0", some ("A")⟩, ⟨"a1", some ("A")⟩, ⟨"a2", some ("A")⟩, ⟨"a3", some ("A")⟩,
   ⟨"a4", some ("A")⟩, ⟨"a5", some ("A")⟩, ⟨"a6", some ("A")⟩, ⟨"a7", some ("A")⟩,
   ⟨"b0", some ("B")⟩,
   ⟨"c0", some ("C")⟩, ⟨"c1", some ("C")⟩, ⟨"c2", some ("C")⟩, ⟨"c3", some ("C")⟩,
   ⟨"c4", some ("C")⟩, ⟨"c5", some ("C")⟩, ⟨"c6", some ("C")⟩, ⟨"c7", some ("C")⟩]

/-- A pair tagged with a chain that is not in the chains list. -/
def strayPair : TrendingPair := ⟨"X1", some ("X")⟩

/-- A raw record whose `priceUsd` parses to the (JS-falsy) number `0` while a
nonzero `price` field is also present. -/
def rawZero : RawToken :=
  { pairAddress := none, id := some ("z"), baseToken := none, symbol := none, name := none,
    priceUsd := some ("0"), price := some 5, priceChangeH24 := none, priceChange24h := none,
    volumeH24 := none, volume24h := none, marketCap := none, liquidityUsd := none }

/-- A raw record with unparsable `priceUsd` and no `price` field. -/
def rawAbc : RawToken :=
  { pairAddress := none, id := some ("a"), baseToken := none, symbol := none, name := none,
    priceUsd := some ("abc"), price := none, priceChangeH24 := none, priceChange24h := none,
    volumeH24 := none, volume24h := none, marketCap := none, liquidityUsd := none }

/-- A well-formed raw record with a pair address. -/
def rawDemo : RawToken :=
  { pairAddress := some ("p1"), id := some ("i1"), baseToken := none, symbol := some ("TKN"),
    name := some ("Demo"), priceUsd := some ("2"), price := none, priceChangeH24 := some 1,
    priceChange24h := none, volumeH24 := some 10, volume24h := none, marketCap := none,
    liquidityUsd := none }

/-- A base token record shared by the concrete aggregation inputs. -/
def aaBase : BaseToken :=
  { address := some ("aa"), symbol := "TKN", name := "Token", logoUri := none, verified := none }

/-- A base token whose address is the (JS-falsy) empty string. -/
def emptyBase : BaseToken :=
  { address := some (""), symbol := "E", name := "E", logoUri := none, verified := none }

/-- A pair whose base-token address is the (JS-falsy) empty string. -/
def emptyAddrPair : Pair :=
  { baseToken := some emptyBase, priceUsd := "1", priceChange := none, volume := some 1,
    marketCap := none, liquidity := some 1 }

/-- First of three pairs on the address `aa`: liquidity 300, price `"1"`. -/
def liqPair1 : Pair :=
  { baseToken := some aaBase, priceUsd := "1", priceChange := some 1, volume := some 10,
    marketCap := none, liquidity := some 300 }

/-- Second pair on `aa`: liquidity 300, price `"2"`. -/
def liqPair2 : Pair :=
  { baseToken := some aaBase, priceUsd := "2", priceChange := some 2, volume := some 20,
    marketCap := none, liquidity := some 300 }

/-- Third pair on `aa`: liquidity 500 — the strict maximum of the three —
and price `"3"`. -/
def liqPair3 : Pair :=
  { baseToken := some aaBase, priceUsd := "3", priceChange := some 3, volume := some 30,
    marketCap := none, liquidity := some 500 }

/-- The spec scenario pair with liquidity 100. -/
def scenPair1 : Pair :=
  { baseToken := some aaBase, priceUsd := "1.5", priceChange := some 1, volume := some 10,
    marketCap := none, liquidity := some 100 }

/-- The spec scenario pair with liquidity 500. -/
def scenPair2 : Pair :=
  { baseToken := some aaBase, priceUsd := "2.5", priceChange := some 2, volume := some 20,
    marketCap := none, liquidity := some 500 }

/-- The aggregate expected for `[scenPair1, scenPair2]`: summed volume and
liquidity, price data taken from the deeper (500-liquidity) pair. -/
def scenToken : Token :=
  { address := "aa", symbol := "TKN", name := "Token", logoUri := none, priceUsd := "2.5",
    priceChange := some 2, volume := some 30, marketCap := none, liquidity := some 600,
    verified := false }

/-- A token whose 24h volume exceeds the default advanced-filter maximum of
ten million. -/
def bigVolumeToken : Token :=
  { address := "0xbig", symbol := "BIG", name := "Big", logoUri := none, priceUsd := "1",
    priceChange := some 0, volume := some 20000000, marketCap := some 0, liquidity := some 0,
    verified := false }

/-- A token whose readings all lie inside the default advanced ranges. -/
def smallToken : Token :=
  { address := "0xsmall", symbol := "SML", name := "Small", logoUri := none, priceUsd := "2",
    priceChange := some 1, volume := some 5, marketCap := some 7, liquidity := some 3,
    verified := false }

/-- A concrete watchlist entry. -/
def demoEntry : WatchToken :=
  { id := "e1", symbol := "AAA", name := none, price := 1, priceChange24h := 0, volume24h := 3,
    marketCap := none, liquidity := none, pairAddress := none, baseToken := none }

/-! ## Theorems -/

/-! ### Helper lemmas about the interleaver -/

theorem mem_chainGroup {pairs : List TrendingPair} {c : String} {p : TrendingPair}
    (h : p ∈ chainGroup pairs c) : p ∈ pairs ∧ p._chain = some c := by
  have := List.mem_filter.mp h
  simpa [chainGroup] using this

theorem mem_interleaveSweep {pairs : List TrendingPair} {chains : List String} {i : Nat}
    {p : TrendingPair} (h : p ∈ interleaveSweep pairs chains i) :
    ∃ c ∈ chains, p._chain = some c := by
  rcases List.mem_filterMap.mp h with ⟨c, hc, hsome⟩
  rcases List.getElem?_eq_some.mp hsome with ⟨hlt, hEq⟩
  have hp : p ∈ chainGroup pairs c := hEq ▸ List.getElem_mem hlt
  exact ⟨c, hc, (mem_chainGroup hp).2⟩

theorem length_interleaveSweep_le (pairs : List TrendingPair) (chains : List String) (i : Nat) :
    (interleaveSweep pairs chains i).length ≤ chains.length :=
  List.length_filterMap_le _ _

theorem mem_interleaveLoop (pairs : List TrendingPair) (chains : List String) :
    ∀ n i res, 16 - res.length ≤ n → ∀ p, p ∈ interleaveLoop pairs chains i res →
      p ∈ res ∨ ∃ c ∈ chains, p._chain = some c := by
  intro n
  induction n with
  | zero =>
    intro i res hle p h
    rw [interleaveLoop.eq_def] at h
    by_cases h16 : res.length < 16
    · by_cases hsw : interleaveSweep pairs chains i = []
      · rw [if_pos h16, dif_pos hsw] at h
        exact Or.inl h
      · rw [if_pos h16, dif_neg hsw] at h
        omega
    · rw [if_neg h16] at h
      exact Or.inl h
  | succ n ih =>
    intro i res hle p h
    rw [interleaveLoop.eq_def] at h
    by_cases h16 : res.length < 16
    · by_cases hsw : interleaveSweep pairs chains i = []
      · rw [if_pos h16, dif_pos hsw] at h
        exact Or.inl h
      · rw [if_pos h16, dif_neg hsw] at h
        have hlen : 1 ≤ (interleaveSweep pairs chains i).length :=
          List.length_pos.mpr hsw
        have hrec := ih (i + 1) (res ++ interleaveSweep pairs chains i)
          (by simp only [List.length_append]; omega) p h
        rcases hrec with hmem | hex
        · rcases List.mem_append.mp hmem with hmem | hmem
          · exact Or.inl hmem
          · exact Or.inr (mem_interleaveSweep hmem)
        · exact Or.inr hex
    · rw [if_neg h16] at h
      exact Or.inl h

theorem length_interleaveLoop_le (pairs : List TrendingPair) (chains : List String) :
    ∀ n i res, 16 - res.length ≤ n → res.length ≤ 15 + chains.length →
      (interleaveLoop pairs chains i res).length ≤ 15 + chains.length := by
  intro n
  induction n with
  | zero =>
    intro i res hle hres
    rw [interleaveLoop.eq_def]
    by_cases h16 : res.length < 16
    · by_cases hsw : interleaveSweep pairs chains i = []
      · rw [if_pos h16, dif_pos hsw]
        exact hres
      · have hlen : 1 ≤ (interleaveSweep pairs chains i).length :=
          List.length_pos.mpr hsw
        omega
    · rw [if_neg h16]
      exact hres
  | succ n ih =>
    intro i res hle hres
    rw [interleaveLoop.eq_def]
    by_cases h16 : res.length < 16
    · by_cases hsw : interleaveSweep pairs chains i = []
      · rw [if_pos h16, dif_pos hsw]
        exact hres
      · rw [if_pos h16, dif_neg hsw]
        have hlen : 1 ≤ (interleaveSweep pairs chains i).length :=
          List.length_pos.mpr hsw
        have hsle := length_interleaveSweep_le pairs chains i
        apply ih (i + 1) (res ++ interleaveSweep pairs chains i)
        · simp only [List.length_append]
          omega
        · simp only [List.length_append]
          omega
    · rw [if_neg h16]
      exact hres

/-! ### Helper lemmas about the aggregation map -/

theorem lookupTok_setTok_self (m : List (String × Token)) (k : String) (t : Token) :
    lookupTok (setTok m k t) k = some t := by
  induction m with
  | nil => simp [setTok, lookupTok]
  | cons e rest ih =>
    by_cases h : e.1 = k
    · simp [setTok, h, lookupTok]
    · simp [setTok, h, lookupTok, ih]

theorem lookupTok_setTok_ne (m : List (String × Token)) {k k' : String} (t : Token)
    (h : k' ≠ k) : lookupTok (setTok m k' t) k = lookupTok m k := by
  induction m with
  | nil => simp [setTok, lookupTok, h]
  | cons e rest ih =>
    obtain ⟨k0, t0⟩ := e
    by_cases he : k0 = k'
    · rw [setTok, if_pos he, lookupTok, lookupTok, if_neg h,
        if_neg (fun hc => h (he.symm.trans hc))]
    · rw [setTok, if_neg he, lookupTok, lookupTok]
      by_cases hek : k0 = k
      · rw [if_pos hek, if_pos hek]
      · rw [if_neg hek, if_neg hek, ih]

theorem lookupTok_mem {m : List (String × Token)} {k : String} {t : Token}
    (h : lookupTok m k = some t) : (k, t) ∈ m := by
  induction m with
  | nil => simp [lookupTok] at h
  | cons e rest ih =>
    obtain ⟨k0, t0⟩ := e
    by_cases he : k0 = k
    · rw [lookupTok, if_pos he] at h
      obtain rfl := Option.some.inj h
      rw [← he]
      exact List.mem_cons_self _ _
    · rw [lookupTok, if_neg he] at h
      exact List.mem_cons_of_mem _ (ih h)

theorem lookupTok_of_mem_nodup {m : List (String × Token)} {k : String} {t : Token}
    (hm : (k, t) ∈ m) (hnd : (m.map Prod.fst).Nodup) : lookupTok m k = some t := by
  induction m with
  | nil => simp at hm
  | cons e rest ih =>
    obtain ⟨k0, t0⟩ := e
    rw [List.map_cons, List.nodup_cons] at hnd
    rcases List.mem_cons.mp hm with heq | hmem
    · obtain ⟨rfl, rfl⟩ := Prod.mk.inj (heq.symm)
      rw [lookupTok, if_pos rfl]
    · have hk : k ∈ rest.map Prod.fst := List.mem_map.mpr ⟨(k, t), hmem, rfl⟩
      have he : k0 ≠ k := fun hc => hnd.1 (hc ▸ hk)
      rw [lookupTok, if_neg he]
      exact ih hmem hnd.2

theorem mem_setTok {m : List (String × Token)} {k : String} {t : Token} {e : String × Token}
    (h : e ∈ setTok m k t) : e = (k, t) ∨ e ∈ m := by
  induction m with
  | nil => simpa [setTok] using h
  | cons e' rest ih =>
    obtain ⟨k0, t0⟩ := e'
    by_cases he : k0 = k
    · rw [setTok, if_pos he] at h
      rcases List.mem_cons.mp h with h | h
      · exact Or.inl h
      · exact Or.inr (List.mem_cons_of_mem _ h)
    · rw [setTok, if_neg he] at h
      rcases List.mem_cons.mp h with h | h
      · exact Or.inr (h ▸ List.mem_cons_self _ _)
      · rcases ih h with h | h
        · exact Or.inl h
        · exact Or.inr (List.mem_cons_of_mem _ h)

theorem nodup_keys_setTok {m : List (String × Token)} (k : String) (t : Token)
    (h : (m.map Prod.fst).Nodup) : ((setTok m k t).map Prod.fst).Nodup := by
  induction m with
  | nil => simp [setTok]
  | cons e rest ih =>
    obtain ⟨k0, t0⟩ := e
    rw [List.map_cons, List.nodup_cons] at h
    by_cases he : k0 = k
    · rw [setTok, if_pos he, List.map_cons, List.nodup_cons]
      exact ⟨by simpa [he] using h.1, h.2⟩
    · rw [setTok, if_neg he, List.map_cons, List.nodup_cons]
      refine ⟨fun hc => ?_, ih h.2⟩
      rcases List.mem_map.mp hc with ⟨e', he', hfst⟩
      rcases mem_setTok he' with rfl | hmem
      · exact he hfst.symm
      · exact h.1 (hfst ▸ List.mem_map.mpr ⟨e', hmem, rfl⟩)

theorem createToken_of_pairKey {p : Pair} {k : String} (hk : pairKey p = some k) :
    ∃ t0, createToken p = some t0 ∧ toLowerStr t0.address = k ∧
      t0.priceUsd = p.priceUsd ∧ t0.priceChange = p.priceChange ∧
      t0.volume = p.volume ∧ t0.liquidity = p.liquidity := by
  cases hb : p.baseToken with
  | none => simp [pairKey, hb] at hk
  | some bt =>
    cases ha : bt.address with
    | none => simp [pairKey, hb, ha] at hk
    | some addr =>
      by_cases he : toLowerStr addr = ""
      · simp [pairKey, hb, ha, he] at hk
      · have hkk : toLowerStr addr = k := by
          simpa [pairKey, hb, ha, he] using hk
        exact ⟨newToken bt addr p, by simp [createToken, hb, ha], by simpa [newToken] using hkk,
          rfl, rfl, rfl, rfl⟩

theorem stepPair_key_none {m : List (String × Token)} {p : Pair} (h : pairKey p = none) :
    stepPair m p = m := by
  cases hb : p.baseToken with
  | none => simp [stepPair, hb]
  | some bt =>
    cases ha : bt.address with
    | none => simp [stepPair, hb, ha]
    | some addr =>
      by_cases he : toLowerStr addr = ""
      · simp [stepPair, hb, ha, he]
      · simp [pairKey, hb, ha, he] at h

theorem stepPair_key_some (m : List (String × Token)) {p : Pair} {k : String}
    (hk : pairKey p = some k) :
    ∃ u, aggStep (lookupTok m k) p = some u ∧ stepPair m p = setTok m k u := by
  cases hb : p.baseToken with
  | none => simp [pairKey, hb] at hk
  | some bt =>
    cases ha : bt.address with
    | none => simp [pairKey, hb, ha] at hk
    | some addr =>
      by_cases he : toLowerStr addr = ""
      · simp [pairKey, hb, ha, he] at hk
      · have hkk : toLowerStr addr = k := by
          simpa [pairKey, hb, ha, he] using hk
        have hke : ¬ (k = "") := by
          rw [← hkk]
          exact he
        cases hl : lookupTok m k with
        | none =>
          refine ⟨newToken bt addr p, ?_, ?_⟩
          · simp [aggStep, createToken, hb, ha]
          · simp [stepPair, hb, ha, hkk, hke, hl]
        | some t =>
          refine ⟨mergeToken t p, ?_, ?_⟩
          · simp [aggStep]
          · simp [stepPair, hb, ha, hkk, hke, hl]


/-- The interleaved fold of `transformPairsToTokens`, observed at one key,
is the per-key fold over the subsequence of pairs carrying that key. -/
theorem lookupTok_foldl (k : String) :
    ∀ (pairs : List Pair) (m : List (String × Token)),
      lookupTok (pairs.foldl stepPair m) k =
        (pairs.filter (fun p => pairKey p = some k)).foldl aggStep (lookupTok m k) := by
  intro pairs
  induction pairs with
  | nil => intro m; simp
  | cons p rest ih =>
    intro m
    rw [List.foldl_cons]
    by_cases hk : pairKey p = some k
    · rw [List.filter_cons_of_pos (by simpa using hk), List.foldl_cons, ih]
      obtain ⟨u, hu, hstep⟩ := stepPair_key_some m hk
      rw [hstep, lookupTok_setTok_self, hu]
    · rw [List.filter_cons_of_neg (by simpa using hk), ih]
      cases hk2 : pairKey p with
      | none => rw [stepPair_key_none hk2]
      | some k' =>
        have hne : k' ≠ k := fun hc => hk (hc ▸ hk2)
        obtain ⟨u, hu, hstep⟩ := stepPair_key_some m hk2
        rw [hstep, lookupTok_setTok_ne m u hne]

theorem goodMap_stepPair {m : List (String × Token)} (p : Pair) (h : goodMap m) :
    goodMap (stepPair m p) := by
  cases hk : pairKey p with
  | none =>
    rw [stepPair_key_none hk]
    exact h
  | some k =>
    obtain ⟨u, hu, hstep⟩ := stepPair_key_some m hk
    rw [hstep]
    constructor
    · intro e he
      rcases mem_setTok he with rfl | hm
      · cases hl : lookupTok m k with
        | none =>
          rw [hl] at hu
          obtain ⟨t0, hct, haddr, -, -, -, -⟩ := createToken_of_pairKey hk
          rw [aggStep] at hu
          rw [hct] at hu
          obtain rfl := Option.some.inj hu
          exact haddr
        | some t =>
          rw [hl] at hu
          rw [aggStep] at hu
          obtain rfl := Option.some.inj hu
          have ht : toLowerStr t.address = k := h.1 (k, t) (lookupTok_mem hl)
          simpa [mergeToken] using ht
      · exact h.1 e hm
    · exact nodup_keys_setTok k u h.2

theorem goodMap_foldl (pairs : List Pair) : goodMap (pairs.foldl stepPair []) := by
  have main : ∀ (ps : List Pair) (m : List (String × Token)), goodMap m →
      goodMap (ps.foldl stepPair m) := by
    intro ps
    induction ps with
    | nil => exact fun m hm => hm
    | cons p rest ih =>
      intro m hm
      rw [List.foldl_cons]
      exact ih _ (goodMap_stepPair p hm)
  exact main pairs [] ⟨by simp, by simp⟩

/-- Merging a pair transforms the displayed price data and the recorded
liquidity exactly as one step of the spec-side price scan. -/
theorem mergeToken_state (t : Token) (p : Pair) :
    (((mergeToken t p).priceUsd, (mergeToken t p).priceChange),
        (mergeToken t p).liquidity.getD 0) =
      priceScanStep ((t.priceUsd, t.priceChange), t.liquidity.getD 0) p := by
  by_cases hgt : p.liquidity.getD 0 > t.liquidity.getD 0
  · simp [mergeToken, priceScanStep, hgt]
  · simp [mergeToken, priceScanStep, hgt]

/-- Folding further pairs into an existing aggregate: the address is stable,
the volume accumulates, and the price data follows the spec-side scan. -/
theorem aggStep_fold :
    ∀ (ps : List Pair) (t : Token),
      ∃ u, ps.foldl aggStep (some t) = some u ∧
        u.address = t.address ∧
        u.volume.getD 0 = t.volume.getD 0 + (ps.map (fun p => p.volume.getD 0)).sum ∧
        ((u.priceUsd, u.priceChange), u.liquidity.getD 0) =
          ps.foldl priceScanStep ((t.priceUsd, t.priceChange), t.liquidity.getD 0) := by
  intro ps
  induction ps with
  | nil => exact fun t => ⟨t, rfl, rfl, by simp, by simp⟩
  | cons p rest ih =>
    intro t
    obtain ⟨u, hu, haddr, hvol, hprice⟩ := ih (mergeToken t p)
    refine ⟨u, ?_, ?_, ?_, ?_⟩
    · rw [List.foldl_cons]
      exact hu
    · rw [haddr]
      simp [mergeToken]
    · rw [hvol]
      have : (mergeToken t p).volume.getD 0 = t.volume.getD 0 + p.volume.getD 0 := by
        simp [mergeToken]
      rw [this, List.map_cons, List.sum_cons]
      ring
    · rw [hprice, List.foldl_cons, mergeToken_state]

/-- On a run of pairs that all carry one key `a`, the aggregation map stays a
singleton at `a` holding the per-key fold. -/
theorem foldl_single_key (a : String) :
    ∀ (ps : List Pair), (∀ p ∈ ps, pairKey p = some a) →
      ∀ t, ∃ u, ps.foldl aggStep (some t) = some u ∧ ps.foldl stepPair [(a, t)] = [(a, u)] := by
  intro ps
  induction ps with
  | nil => exact fun _ t => ⟨t, rfl, rfl⟩
  | cons p rest ih =>
    intro hall t
    have hk := hall p (List.mem_cons_self p rest)
    obtain ⟨u0, hu0, hstep⟩ := stepPair_key_some [(a, t)] hk
    have hl : lookupTok [(a, t)] a = some t := by simp [lookupTok]
    rw [hl] at hu0
    have hset : setTok [(a, t)] a u0 = [(a, u0)] := by simp [setTok]
    obtain ⟨u, hu, hmap⟩ := ih (fun q hq => hall q (List.mem_cons_of_mem p hq)) u0
    refine ⟨u, ?_, ?_⟩
    · rw [List.foldl_cons, hu0]
      exact hu
    · rw [List.foldl_cons, hstep, hset]
      exact hmap

/-! ### Helper lemmas about the filter engine -/

theorem volumeDescLe_total (a b : Token) : volumeDescLe a b || volumeDescLe b a := by
  simp only [volumeDescLe, Bool.or_eq_true, decide_eq_true_eq]
  rcases le_total (a.volume.getD 0) (b.volume.getD 0) with h | h
  · right
    linarith
  · left
    linarith

theorem volumeDescLe_trans (a b c : Token) (hab : volumeDescLe a b) (hbc : volumeDescLe b c) :
    volumeDescLe a c := by
  simp only [volumeDescLe, decide_eq_true_eq] at *
  linarith

theorem mem_ite_filter {l : List Token} {p : Token → Bool} {b : Bool} {x : Token}
    (h : x ∈ (if b = true then l.filter p else l)) : x ∈ l ∧ (b = true → p x = true) := by
  by_cases hb : b = true
  · rw [if_pos hb] at h
    exact ⟨(List.mem_filter.mp h).1, fun _ => (List.mem_filter.mp h).2⟩
  · rw [if_neg hb] at h
    exact ⟨h, fun hc => absurd hc hb⟩

theorem ite_filter_eq_self {l : List Token} {p : Token → Bool} {b : Bool}
    (h : b = true → l.filter p = l) : (if b = true then l.filter p else l) = l := by
  by_cases hb : b = true
  · rw [if_pos hb]
    exact h hb
  · rw [if_neg hb]

theorem mem_of_mem_quickFiltered {tokens : List Token} {filters : List String} {x : Token}
    (h : x ∈ quickFiltered tokens filters) :
    x ∈ tokens ∧
    (filters.contains ("High Volume") = true → highVolumePred x = true) ∧
    (filters.contains ("Top Gainers") = true → topGainersPred x = true) ∧
    (filters.contains ("Top Losers") = true → topLosersPred x = true) := by
  simp only [quickFiltered] at h
  obtain ⟨h, h3⟩ := mem_ite_filter h
  obtain ⟨h, h2⟩ := mem_ite_filter h
  obtain ⟨h, h1⟩ := mem_ite_filter h
  exact ⟨h, h1, h2, h3⟩

theorem quickFiltered_eq_self {l : List Token} {filters : List String}
    (h : ∀ x ∈ l,
      (filters.contains ("High Volume") = true → highVolumePred x = true) ∧
      (filters.contains ("Top Gainers") = true → topGainersPred x = true) ∧
      (filters.contains ("Top Losers") = true → topLosersPred x = true)) :
    quickFiltered l filters = l := by
  have e1 : (if filters.contains ("High Volume") = true then l.filter highVolumePred else l) = l :=
    ite_filter_eq_self (fun hc => List.filter_eq_self.mpr (fun x hx => (h x hx).1 hc))
  have e2 : (if filters.contains ("Top Gainers") = true then l.filter topGainersPred else l) = l :=
    ite_filter_eq_self (fun hc => List.filter_eq_self.mpr (fun x hx => (h x hx).2.1 hc))
  have e3 : (if filters.contains ("Top Losers") = true then l.filter topLosersPred else l) = l :=
    ite_filter_eq_self (fun hc => List.filter_eq_self.mpr (fun x hx => (h x hx).2.2 hc))
  simp only [quickFiltered]
  rw [e1, e2, e3]

/-- C1 fails on the code as stated: on three pairs for one base token with
liquidities 300, 300 and 500, the pair of strictly maximal liquidity (500,
price `"3"`) does not supply the final price — the code compares each new
pair against the accumulated liquidity total (600 by the third pair), so the
first pair's price `"1"` survives. -/
theorem c1_price_counterexample :
    ((transformPairsToTokens [liqPair1, liqPair2, liqPair3]).map Token.priceUsd) = ["1"] ∧
    liqPair1.liquidity.getD 0 < liqPair3.liquidity.getD 0 ∧
    liqPair2.liquidity.getD 0 < liqPair3.liquidity.getD 0 ∧
    liqPair3.priceUsd = "3" := by
  refine ⟨?_, by norm_num [liqPair1, liqPair3], by norm_num [liqPair2, liqPair3], rfl⟩
  simp +decide [transformPairsToTokens, stepPair, pairKey, toLowerStr, lookupTok, setTok,
    mergeToken, newToken, liqPair1, liqPair2, liqPair3, aaBase]
  norm_num

/-- C1 as amended: the price data of every aggregate token equals the result
of the running-total scan over the pairs merged into it — a later pair's
price is taken exactly when its liquidity strictly exceeds the sum of the
liquidities of all previously merged pairs (so on two pairs the deeper one
wins, and a tie keeps the first-seen price). -/
theorem c1_amended_price_selection (pairs : List Pair) (t : Token)
    (ht : t ∈ transformPairsToTokens pairs) :
    selectedPriceData (pairs.filter (fun p => pairKey p = some (toLowerStr t.address))) =
      some (t.priceUsd, t.priceChange) := by
  obtain ⟨e, he, hsnd⟩ := List.mem_map.mp ht
  have hgm := goodMap_foldl pairs
  have haddr : toLowerStr t.address = e.1 := by
    rw [← hsnd]
    exact hgm.1 e he
  have hmem2 : (e.1, t) ∈ pairs.foldl stepPair [] := by
    rw [← hsnd, Prod.mk.eta]
    exact he
  have hlk : lookupTok (pairs.foldl stepPair []) e.1 = some t :=
    lookupTok_of_mem_nodup hmem2 hgm.2
  rw [lookupTok_foldl e.1 pairs []] at hlk
  rw [haddr]
  cases hfl : pairs.filter (fun p => pairKey p = some e.1) with
  | nil =>
    rw [hfl] at hlk
    simp [lookupTok] at hlk
  | cons q rest =>
    have hq : pairKey q = some e.1 := by
      have hqm : q ∈ pairs.filter (fun p => pairKey p = some e.1) := by
        rw [hfl]
        exact List.mem_cons_self q rest
      simpa using (List.mem_filter.mp hqm).2
    obtain ⟨t0, hct, haddr0, hpu, hpc, hvol0, hliq0⟩ := createToken_of_pairKey hq
    rw [hfl, List.foldl_cons] at hlk
    have hnil : lookupTok ([] : List (String × Token)) e.1 = none := rfl
    rw [hnil] at hlk
    rw [show aggStep none q = some t0 from by rw [aggStep, hct]] at hlk
    obtain ⟨u, hu, huaddr, huvol, huprice⟩ := aggStep_fold rest t0
    rw [hu] at hlk
    obtain rfl := Option.some.inj hlk
    rw [hpu, hpc, hliq0] at huprice
    simp only [selectedPriceData]
    rw [← huprice]

theorem c1_amended_price_selection_witness :
    selectedPriceData ([scenPair1, scenPair2].filter
        (fun p => pairKey p = some (toLowerStr scenToken.address))) =
      some (scenToken.priceUsd, scenToken.priceChange) :=
  c1_amended_price_selection [scenPair1, scenPair2] scenToken
    (by
      simp +decide [transformPairsToTokens, stepPair, pairKey, toLowerStr, lookupTok, setTok,
        mergeToken, newToken, scenPair1, scenPair2, aaBase, scenToken]
      norm_num)

/-- C2 fails on the code as stated on two edge inputs: the empty sequence of
pairs (vacuously sharing any address) produces no token rather than one, and
a pair whose shared base-token address is the JS-falsy empty string is
skipped, again producing no token. -/
theorem c2_single_counterexample :
    transformPairsToTokens [] = [] ∧
    emptyAddrPair.baseToken = some emptyBase ∧ emptyBase.address = some ("") ∧
    transformPairsToTokens [emptyAddrPair] = [] := by
  refine ⟨rfl, rfl, rfl, ?_⟩
  simp +decide [transformPairsToTokens, stepPair, emptyAddrPair, emptyBase, toLowerStr]

/-- C2 as amended: on a nonempty sequence of pairs that all carry one
aggregation key (present, nonempty base-token address with a common
lower-casing), `transformPairsToTokens` produces exactly one token, its 24h
volume is the sum of the pairs' volumes (missing read as 0), and both facts
are stable under every permutation of the input, with the same total. -/
theorem c2_amended_single_token (pairs : List Pair) (a : String) (hne : pairs ≠ [])
    (hkey : ∀ p ∈ pairs, pairKey p = some a) :
    (transformPairsToTokens pairs).length = 1 ∧
    (∀ t ∈ transformPairsToTokens pairs,
      t.volume.getD 0 = (pairs.map (fun p => p.volume.getD 0)).sum) ∧
    (∀ pairs' : List Pair, pairs'.Perm pairs →
      (transformPairsToTokens pairs').length = 1 ∧
      ∀ t ∈ transformPairsToTokens pairs',
        t.volume.getD 0 = (pairs.map (fun p => p.volume.getD 0)).sum) := by
  have main : ∀ (ps : List Pair), ps ≠ [] → (∀ p ∈ ps, pairKey p = some a) →
      (transformPairsToTokens ps).length = 1 ∧
      ∀ t ∈ transformPairsToTokens ps,
        t.volume.getD 0 = (ps.map (fun p => p.volume.getD 0)).sum := by
    intro ps hne0 hkey0
    cases ps with
    | nil => exact absurd rfl hne0
    | cons q rest =>
      have hq : pairKey q = some a := hkey0 q (List.mem_cons_self q rest)
      obtain ⟨t0, hct, haddr0, hpu, hpc, hvol0, hliq0⟩ := createToken_of_pairKey hq
      obtain ⟨u0, hu0, hstep⟩ := stepPair_key_some [] hq
      have hnil : lookupTok ([] : List (String × Token)) a = none := rfl
      rw [hnil, aggStep, hct] at hu0
      obtain rfl := Option.some.inj hu0
      obtain ⟨u, hu, hmap⟩ := foldl_single_key a rest
        (fun p hp => hkey0 p (List.mem_cons_of_mem q hp)) t0
      have htrans : transformPairsToTokens (q :: rest) = [u] := by
        simp only [transformPairsToTokens, List.foldl_cons]
        rw [hstep, show setTok [] a t0 = [(a, t0)] from rfl, hmap]
        rfl
      obtain ⟨u', hu', -, huvol, -⟩ := aggStep_fold rest t0
      rw [hu] at hu'
      obtain rfl := Option.some.inj hu'
      refine ⟨by rw [htrans]; rfl, fun t ht => ?_⟩
      rw [htrans] at ht
      obtain rfl : t = u := by simpa using ht
      rw [huvol, hvol0, List.map_cons, List.sum_cons]
  refine ⟨(main pairs hne hkey).1, (main pairs hne hkey).2, fun pairs' hperm => ?_⟩
  have hne' : pairs' ≠ [] := by
    intro hc
    rw [hc] at hperm
    have hlen := hperm.length_eq
    simp at hlen
    exact hne (List.length_eq_zero.mp hlen.symm)
  have hkey' : ∀ p ∈ pairs', pairKey p = some a := fun p hp => hkey p (hperm.mem_iff.mp hp)
  obtain ⟨hlen, hvol⟩ := main pairs' hne' hkey'
  refine ⟨hlen, fun t ht => ?_⟩
  rw [hvol t ht]
  exact List.Perm.sum_eq (hperm.map (fun p => p.volume.getD 0))

theorem c2_amended_single_token_witness :
    (transformPairsToTokens [scenPair1, scenPair2]).length = 1 :=
  (c2_amended_single_token [scenPair1, scenPair2] ("aa") (by decide) (by decide)).1

theorem advancedPred_default {t : Token} (h : withinDefaultRanges t) :
    advancedPred defaultAdvancedFilters t = true := by
  obtain ⟨h1, h2, h3, h4, h5, h6, h7, h8, h9, h10⟩ := h
  simp only [advancedPred, defaultAdvancedFilters, Bool.and_eq_true, decide_eq_true_eq,
    Bool.not_false, Bool.true_or, and_true, ge_iff_le]
  exact ⟨⟨⟨⟨⟨⟨⟨⟨⟨h1, h2⟩, h3⟩, h4⟩, h5⟩, h6⟩, h7⟩, h8⟩, h9⟩, h10⟩

/-- C3 fails on the code as stated: the default advanced ranges are not wide
enough to pass every token — `bigVolumeToken` has 24h volume twenty million,
above the default `maxVolume` of ten million, so with an empty quick-filter
set and the initial advanced-filter state it is excluded and the element count
drops from one to zero. -/
theorem c3_default_counterexample :
    applyFilters [bigVolumeToken] [] defaultAdvancedFilters = [] := by
  simp +decide [applyFilters, quickFiltered, advancedPred, defaultAdvancedFilters,
    highVolumePred, topGainersPred, topLosersPred, parseFloat, digitsVal, bigVolumeToken]

/-- C3 as amended: on any token list all of whose tokens lie inside the
default advanced ranges, `applyFilters` with an empty quick-filter set and the
initial advanced-filter state excludes nothing: it returns exactly the stable
descending-volume re-ordering of the input, a permutation of it, preserving
the element count. -/
theorem c3_amended_default_passthrough (tokens : List Token)
    (h : ∀ t ∈ tokens, withinDefaultRanges t) :
    applyFilters tokens [] defaultAdvancedFilters = tokens.mergeSort volumeDescLe ∧
    (applyFilters tokens [] defaultAdvancedFilters).Perm tokens ∧
    (applyFilters tokens [] defaultAdvancedFilters).length = tokens.length := by
  have hquick : quickFiltered tokens [] = tokens := by
    simp [quickFiltered]
  have hadv : tokens.filter (advancedPred defaultAdvancedFilters) = tokens :=
    List.filter_eq_self.mpr (fun t ht => advancedPred_default (h t ht))
  have heq : applyFilters tokens [] defaultAdvancedFilters = tokens.mergeSort volumeDescLe := by
    rw [applyFilters, hquick, hadv]
  refine ⟨heq, ?_, ?_⟩
  · rw [heq]
    exact List.mergeSort_perm tokens volumeDescLe
  · rw [heq]
    exact List.length_mergeSort tokens

theorem c3_amended_default_passthrough_witness :
    applyFilters [smallToken] [] defaultAdvancedFilters = [smallToken].mergeSort volumeDescLe ∧
    (applyFilters [smallToken] [] defaultAdvancedFilters).Perm [smallToken] ∧
    (applyFilters [smallToken] [] defaultAdvancedFilters).length = [smallToken].length :=
  c3_amended_default_passthrough [smallToken]
    (by
      intro t ht
      simp only [List.mem_singleton] at ht
      subst ht
      constructor
      · simp +decide [parseFloat, digitsVal, smallToken]
      constructor
      · simp +decide [parseFloat, digitsVal, smallToken]
      simp +decide [smallToken])

/-- C7: `applyFilters` is idempotent — applying it to its own output with the
same quick-filter set and the same advanced-filter values returns the same
sequence. -/
theorem c7_applyFilters_idempotent (tokens : List Token) (filters : List String)
    (advanced : AdvancedFilters) :
    applyFilters (applyFilters tokens filters advanced) filters advanced =
      applyFilters tokens filters advanced := by
  have hmem : ∀ x ∈ applyFilters tokens filters advanced,
      x ∈ quickFiltered tokens filters ∧ advancedPred advanced x = true ∧
      (filters.contains ("High Volume") = true → highVolumePred x = true) ∧
      (filters.contains ("Top Gainers") = true → topGainersPred x = true) ∧
      (filters.contains ("Top Losers") = true → topLosersPred x = true) := by
    intro x hx
    rw [applyFilters, List.mem_mergeSort] at hx
    have h1 := (List.mem_filter.mp hx).1
    have h2 := (List.mem_filter.mp hx).2
    have h3 := mem_of_mem_quickFiltered h1
    exact ⟨h1, h2, h3.2.1, h3.2.2.1, h3.2.2.2⟩
  have hsorted : (applyFilters tokens filters advanced).Pairwise (volumeDescLe · ·) := by
    rw [applyFilters]
    exact List.sorted_mergeSort (fun a b c => volumeDescLe_trans a b c) volumeDescLe_total _
  have hquick : quickFiltered (applyFilters tokens filters advanced) filters =
      applyFilters tokens filters advanced :=
    quickFiltered_eq_self (fun x hx => (hmem x hx).2.2)
  have hadv : (applyFilters tokens filters advanced).filter (advancedPred advanced) =
      applyFilters tokens filters advanced :=
    List.filter_eq_self.mpr (fun x hx => (hmem x hx).2.1)
  calc applyFilters (applyFilters tokens filters advanced) filters advanced
      = (applyFilters tokens filters advanced).mergeSort volumeDescLe := by
        rw [applyFilters, hquick, hadv]
    _ = applyFilters tokens filters advanced := List.mergeSort_of_sorted hsorted

/-- C10: every pair emitted by `interleavePairs` carries a `_chain` tag that
is an element of the chains argument, and a pair whose tag is absent or not in
the chains list never appears in the output. -/
theorem c10_chain_tags (pairs : List TrendingPair) (chains : List String) :
    (∀ p ∈ interleavePairs pairs chains, ∃ c ∈ chains, p._chain = some c) ∧
    (∀ p ∈ pairs, (∀ c ∈ chains, p._chain ≠ some c) → p ∉ interleavePairs pairs chains) := by
  have hmem : ∀ p ∈ interleavePairs pairs chains, ∃ c ∈ chains, p._chain = some c := by
    intro p hp
    have := mem_interleaveLoop pairs chains 16 0 [] (by simp) p hp
    simpa using this
  refine ⟨hmem, fun p _ hno hp => ?_⟩
  rcases hmem p hp with ⟨c, hc, htag⟩
  exact hno c hc htag

theorem c10_chain_tags_witness : strayPair ∉ interleavePairs [dpA1, strayPair] (["A"]) :=
  (c10_chain_tags [dpA1, strayPair] ["A"]).2 strayPair (by decide) (by decide)

/-- C4 fails on the code as stated: the 16-element cap is only tested between
full sweeps, so on seventeen pairs spread over the chains `A`, `B`, `C` as in
`overflowPairs` the output has length 17. -/
theorem c4_cap_counterexample :
    (interleavePairs overflowPairs (["A", "B", "C"])).length = 17 := by
  simp [interleavePairs, interleaveLoop, interleaveSweep, chainGroup, overflowPairs]

/-- C4 as amended: the output of `interleavePairs` has length at most
`15 + chains.length` — the cap of 16 is checked only between full sweeps, so
the final sweep can overshoot it by up to one pair per chain; the literal
bound 16 holds only when the chains list has at most one entry. -/
theorem c4_amended_length_bound (pairs : List TrendingPair) (chains : List String) :
    (interleavePairs pairs chains).length ≤ 15 + chains.length :=
  length_interleaveLoop_le pairs chains 16 0 [] (by simp) (by simp)

/-- C5: `interleavePairs` on the six pairs tagged `[A,A,B,C,C,C]` in input
order `A1,A2,B1,C1,C2,C3` with chain order `[A,B,C]` yields exactly the
round-robin sequence `[A1,B1,C1,A2,C2,C3]`: each sweep of the chains list
emits the next not-yet-emitted pair of each chain, skipping exhausted
chains. -/
theorem c5_interleave_round_robin :
    interleavePairs [dpA1, dpA2, dpB1, dpC1, dpC2, dpC3] (["A", "B", "C"]) =
      [dpA1, dpB1, dpC1, dpA2, dpC2, dpC3] := by
  simp [interleavePairs, interleaveLoop, interleaveSweep, chainGroup,
    dpA1, dpA2, dpB1, dpC1, dpC2, dpC3]

/-- C9: `removeFromWatchlist` removes exactly the entries with the given id:
no surviving entry carries it, the survivors are a sublist of the input (so
relative order is untouched), every entry with a different id survives, and
when no entry carries the id the list is returned unchanged. -/
theorem c9_remove_exact (wl : List WatchToken) (tokenId : String) :
    (∀ t ∈ removeFromWatchlist wl tokenId, t.id ≠ tokenId) ∧
    (removeFromWatchlist wl tokenId).Sublist wl ∧
    (∀ t ∈ wl, t.id ≠ tokenId → t ∈ removeFromWatchlist wl tokenId) ∧
    ((∀ t ∈ wl, t.id ≠ tokenId) → removeFromWatchlist wl tokenId = wl) := by
  refine ⟨fun t ht => ?_, List.filter_sublist wl, fun t ht hne => ?_, fun h => ?_⟩
  · have := List.of_mem_filter ht
    simpa using this
  · exact List.mem_filter.mpr ⟨ht, by simpa using hne⟩
  · exact List.filter_eq_self.mpr (fun t ht => by simpa using h t ht)

theorem c9_remove_exact_witness : removeFromWatchlist [demoEntry] ("zz") = [demoEntry] :=
  (c9_remove_exact [demoEntry] "zz").2.2.2 (by decide)

/-- C8: when the id computed by `addToWatchlist` already occurs in the
watchlist the call returns the list unchanged; consequently a second add of a
record producing the same computed id is a no-op after any first add. -/
theorem c8_add_at_most_once (wl : List WatchToken) (tok : RawToken) (fresh : String) :
    ((∃ t ∈ wl, t.id = computeId tok fresh) → addToWatchlist wl tok fresh = wl) ∧
    (∀ tok2 fresh2, computeId tok2 fresh2 = computeId tok fresh →
      addToWatchlist (addToWatchlist wl tok fresh) tok2 fresh2 = addToWatchlist wl tok fresh) := by
  have key : ∀ (l : List WatchToken) (tk : RawToken) (fr : String),
      (∃ t ∈ l, t.id = computeId tk fr) → addToWatchlist l tk fr = l := by
    intro l tk fr h
    have hany : l.any (fun t => t.id = computeId tk fr) = true := by
      rcases h with ⟨t, ht, hid⟩
      exact List.any_eq_true.mpr ⟨t, ht, by simpa using hid⟩
    simp [addToWatchlist, hany]
  refine ⟨key wl tok fresh, fun tok2 fresh2 heq => ?_⟩
  apply key
  rw [heq]
  by_cases hany : wl.any (fun t => t.id = computeId tok fresh) = true
  · rcases List.any_eq_true.mp hany with ⟨t, ht, hid⟩
    refine ⟨t, ?_, by simpa using hid⟩
    simp [addToWatchlist, hany, ht]
  · refine ⟨normalizeWatchToken tok (computeId tok fresh), ?_, rfl⟩
    simp [addToWatchlist, hany]

theorem c8_add_at_most_once_witness :
    addToWatchlist (addToWatchlist [] rawDemo ("f1")) rawDemo ("f2") =
      addToWatchlist [] rawDemo ("f1") :=
  (c8_add_at_most_once [] rawDemo "f1").2 rawDemo "f2" (by decide)

/-- C6 fails on the code as stated: for the record `rawZero`, parsing
`priceUsd = "0"` succeeds with the value `0`, yet the stored price is the
fallback `5` taken from `raw.price`, because `parseFloat(...) || token.price`
treats the successfully parsed `0` as falsy. -/
theorem c6_price_counterexample :
    parseFloat ("0") = some 0 ∧
    ((addToWatchlist [] rawZero ("f")).map WatchToken.price) = [5] := by
  constructor
  · simp +decide [parseFloat, digitsVal]
  · simp +decide [addToWatchlist, normalizeWatchToken, computeId, jsOrNum, jsOrStr, jsOrStrOpt,
      parseFloat, digitsVal, rawZero]

/-- C6 as amended: `addToWatchlist` either leaves the list unchanged or
appends the normalized entry; the stored price equals the decimal parse of
`raw.priceUsd` whenever the parse succeeds with a nonzero value, and falls
back to JS `raw.price || 0` whenever the parse fails, the field is absent, or
the parse yields `0`; the computation is total, so it never throws. -/
theorem c6_amended_price (tok : RawToken) (fresh : String) (wl : List WatchToken) :
    (addToWatchlist wl tok fresh = wl ∨
      addToWatchlist wl tok fresh = wl ++ [normalizeWatchToken tok (computeId tok fresh)]) ∧
    (∀ v : ℚ, parseFloat (tok.priceUsd.getD ("0")) = some v → v ≠ 0 →
      (normalizeWatchToken tok (computeId tok fresh)).price = v) ∧
    ((parseFloat (tok.priceUsd.getD ("0")) = none ∨
        parseFloat (tok.priceUsd.getD ("0")) = some 0) →
      (normalizeWatchToken tok (computeId tok fresh)).price = jsOrNum tok.price 0) := by
  refine ⟨?_, fun v hv hne => ?_, fun h => ?_⟩
  · by_cases hany : wl.any (fun t => t.id = computeId tok fresh) = true
    · exact Or.inl (by simp [addToWatchlist, hany])
    · exact Or.inr (by simp [addToWatchlist, hany])
  · simp [normalizeWatchToken, hv, jsOrNum, hne]
  · rcases h with h | h <;> simp [normalizeWatchToken, h, jsOrNum]

theorem c6_amended_price_witness :
    (normalizeWatchToken rawAbc (computeId rawAbc ("t"))).price = 0 := by
  have h := (c6_amended_price rawAbc "t" []).2.2
    (Or.inl (by simp +decide [parseFloat, digitsVal, rawAbc]))
  simpa [rawAbc, jsOrNum] using h

end Screener
